import Mathlib

/-!
Verification development for an SKK-style input-method engine
(gap-buffer text model, romaji-to-kana matcher, dictionary lookup and
the keystroke state machine).

Rust strings are modelled as `List Char`.  Comparison of `&str` values in
the source is byte-wise lexicographic comparison of their UTF-8 encodings,
which coincides with code-point-wise lexicographic comparison of the
character sequences, so `strLt` below is faithful.  Machine `usize`
arithmetic appears only as saturating subtraction and as additions that
cannot overflow for any realistic input, so `Nat` is used.
-/

namespace UchiNige

abbrev Str := List Char

/-- Rust `char::is_ascii_lowercase`. -/
def isAsciiLower (c : Char) : Bool := 'a' ≤ c && c ≤ 'z'

/-- Rust `char::is_ascii_punctuation` (the four ASCII punctuation ranges). -/
def isAsciiPunct (c : Char) : Bool :=
  (0x21 ≤ c.toNat && c.toNat ≤ 0x2F) || (0x3A ≤ c.toNat && c.toNat ≤ 0x40) ||
  (0x5B ≤ c.toNat && c.toNat ≤ 0x60) || (0x7B ≤ c.toNat && c.toNat ≤ 0x7E)

/-- Rust `char::is_ascii_digit`. -/
def isAsciiDigit (c : Char) : Bool := '0' ≤ c && c ≤ '9'

/-- Rust `str::is_ascii` (every byte, equivalently every char, is below 0x80). -/
def isAsciiStr (s : Str) : Bool := s.all (fun c => c.toNat ≤ 0x7F)

/-- Byte-wise lexicographic `<` on Rust `&str`, at the character level. -/
def strLt : Str → Str → Bool
  | _, [] => false
  | [], _ :: _ => true
  | a :: as, b :: bs => if a < b then true else if b < a then false else strLt as bs

-- -------------------- Transliteration matcher (src/romaji.rs) --------------------

structure KanaConverted where
  commit : Str
  pushback : Str
deriving DecidableEq, Repr

inductive KanaMatch where
  | Success (k : KanaConverted)
  | PrefixMatch
  | Failure
deriving DecidableEq, Repr

/-- The commit/pushback split of a matched table value: the source checks whether
the last byte of the value is ASCII lowercase and slices the string before it.
The last byte of a UTF-8 string is ASCII lowercase exactly when the last
character is, and that character is then one byte long, so the byte-level slice
is `dropLast`.  (On an empty value the source would panic; table values are
never empty, and the claims about the split carry that hypothesis.) -/
def splitTrailing (conv : Str) : Str × Str :=
  match conv.getLast? with
  | some c => if isAsciiLower c then (conv.dropLast, [c]) else (conv, [])
  | none => (conv, [])

/-- `search_lookup_table` from src/romaji.rs, parametrised by the static sorted
romaji table (the table itself is data, outside the verified core).
`slice::partition_point` on a slice partitioned by the predicate returns the
length of the maximal prefix satisfying it, which is how it is modelled here;
the table is sorted, so the slice is partitioned for the predicate `k < romaji`. -/
def search_lookup_table (table : List (Str × Str)) (romaji : Str) : KanaMatch :=
  if romaji = [] then .Failure
  else
    let i := (table.takeWhile (fun kv => strLt kv.1 romaji)).length
    match table.get? i with
    | some kv =>
        if kv.1 = romaji then
          .Success ⟨(splitTrailing kv.2).1, (splitTrailing kv.2).2⟩
        else if romaji.isPrefixOf kv.1 then .PrefixMatch
        else .Failure
    | none => .Failure

-- -------------------- Dictionary (src/jisyo.rs) --------------------

/-- `str::split` on a single separator character (keeps empty fields,
exactly like Rust's `split`). -/
def splitOnChar (sep : Char) : Str → List Str
  | [] => [[]]
  | c :: rest =>
      let r := splitOnChar sep rest
      if c = sep then [] :: r
      else
        match r with
        | h :: t => (c :: h) :: t
        | [] => [[c]]

/-- `SingleJisyo::yomi_at`: the part of an entry line before the first space;
the whole line when it has no space. -/
def yomiAt (line : Str) : Str := line.takeWhile (fun c => c ≠ ' ')

/-- `SingleJisyo::candidates_at`: `split_once(' ')`, require the remainder to
start with `/`, split it on `/` and drop empty fields.  Malformed lines yield
the empty list. -/
def candidatesAt (line : Str) : List Str :=
  match line.dropWhile (fun c => c ≠ ' ') with
  | [] => []
  | _ :: rest =>
      if rest.head? = some '/' then (splitOnChar '/' rest).filter (fun s => s ≠ [])
      else []

/-- One loaded dictionary source: its valid entry lines in the order of the
offset index (`load` sorts the offsets by the extracted reading key). -/
structure SingleJisyo where
  lines : List Str
deriving DecidableEq

/-- `SingleJisyo::lookup`: binary search of the sorted offset index for an
exact reading match, modelled as scanning for a line whose key equals the
reading (equivalent for a sorted index with distinct keys). -/
def SingleJisyo.lookup (s : SingleJisyo) (yomi : Str) : Option (List Str) :=
  (s.lines.find? (fun l => yomiAt l = yomi)).map candidatesAt

/-- `Jisyo`: the configured sources in order. -/
structure Jisyo where
  sources : List SingleJisyo
deriving DecidableEq

/-- `Jisyo::lookup`: append each source's hit in configured order; `None`
when the accumulated list is empty. -/
def Jisyo.lookup (j : Jisyo) (yomi : Str) : Option (List Str) :=
  let all := (j.sources.map (fun s => (s.lookup yomi).getD [])).flatten
  if all = [] then none else some all

-- -------------------- Text buffer (src/buffer.rs) --------------------

/-- `Vec::insert` at an index.  The source panics when the index exceeds the
length; under the buffer invariant the index is always at most the length, at
which point this appends. -/
def insAt {α : Type} : Nat → α → List α → List α
  | 0, x, l => x :: l
  | _ + 1, x, [] => [x]
  | n + 1, x, y :: ys => y :: insAt n x ys

structure Buffer where
  lines : List (List Char)
  row : Nat
  col : Nat
  selection_origin : Option Nat
  dirty : Bool
deriving DecidableEq, Repr

namespace Buffer

/-- `Buffer::default`. -/
def init : Buffer := ⟨[[]], 0, 0, none, false⟩

/-- The row under the cursor (`self.lines[self.row]`). -/
def curLine (b : Buffer) : List Char := b.lines.getD b.row []

def setCurLine (b : Buffer) (l : List Char) : Buffer :=
  { b with lines := b.lines.set b.row l }

def clear (b : Buffer) : Buffer :=
  { b with lines := [[]], row := 0, col := 0, selection_origin := none, dirty := true }

/-- `delete_on_cursor`: remove the character at the cursor column when one
exists; reports whether a character was removed. -/
def delete_on_cursor (b : Buffer) : Buffer × Bool :=
  if b.col < b.curLine.length then (b.setCurLine (b.curLine.eraseIdx b.col), true)
  else (b, false)

/-- `n` sequential `delete_on_cursor` calls (the `for _ in 0..=diff` loop). -/
def deleteN : Nat → Buffer → Buffer
  | 0, b => b
  | n + 1, b => deleteN n (b.delete_on_cursor).1

def delete_range (b : Buffer) : Buffer :=
  let b := { b with dirty := true }
  match b.selection_origin with
  | some origin =>
      let diff := max b.col origin - min b.col origin
      let b := { b with col := min b.col origin }
      let b := deleteN (diff + 1) b
      { b with selection_origin := none }
  | none => b

/-- `newline` (private): split the current row at the cursor. -/
def newline (b : Buffer) : Buffer :=
  let b := { b with selection_origin := none }
  let left := b.curLine.take b.col
  let right := b.curLine.drop b.col
  let b := b.setCurLine left
  { b with row := b.row + 1, col := 0, lines := insAt (b.row + 1) right b.lines }

def insert_char (b : Buffer) (c : Char) : Buffer :=
  let b := { b with dirty := true }
  if c = '\n' then b.newline
  else
    let b := if b.selection_origin.isSome then b.delete_range else b
    { b.setCurLine (insAt b.col c b.curLine) with col := b.col + 1 }

def insert_str (b : Buffer) (s : Str) : Buffer := s.foldl insert_char b

def move_up (b : Buffer) : Buffer × Bool :=
  let b := { b with dirty := true, selection_origin := none }
  if 0 < b.row then
    let b := { b with row := b.row - 1 }
    ({ b with col := min b.col b.curLine.length }, true)
  else (b, false)

def move_down (b : Buffer) : Buffer × Bool :=
  let b := { b with dirty := true, selection_origin := none }
  if b.row + 1 < b.lines.length then
    let b := { b with row := b.row + 1 }
    ({ b with col := min b.col b.curLine.length }, true)
  else (b, false)

def to_line_head (b : Buffer) : Buffer :=
  { b with dirty := true, selection_origin := none, col := 0 }

def to_line_tail (b : Buffer) : Buffer :=
  let b := { b with dirty := true, selection_origin := none }
  { b with col := b.curLine.length }

def move_left (b : Buffer) : Buffer × Bool :=
  let b := { b with dirty := true, selection_origin := none }
  if 0 < b.col then ({ b with col := b.col - 1 }, true)
  else
    let r := b.move_up
    if r.2 then (r.1.to_line_tail, true) else (r.1, false)

def move_right (b : Buffer) : Buffer × Bool :=
  let b := { b with dirty := true, selection_origin := none }
  if b.col < b.curLine.length then ({ b with col := b.col + 1 }, true)
  else
    let r := b.move_down
    if r.2 then (r.1.to_line_head, true) else (r.1, false)

/-- `concatenate_cur_next_lines` (private): merge the next row into the
current one. -/
def concatenate_cur_next_lines (b : Buffer) : Buffer :=
  if b.row < b.lines.length - 1 then
    let next := b.lines.getD (b.row + 1) []
    let lines := b.lines.eraseIdx (b.row + 1)
    { b with lines := lines.set b.row (lines.getD b.row [] ++ next) }
  else b

def delete (b : Buffer) : Buffer :=
  let b := { b with dirty := true }
  if b.selection_origin.isSome then b.delete_range
  else
    let r := b.delete_on_cursor
    if r.2 then r.1 else r.1.concatenate_cur_next_lines

def backspace (b : Buffer) : Buffer :=
  if b.selection_origin.isSome then b.delete_range
  else
    let r := b.move_left
    if r.2 then r.1.delete else r.1

/-- `rapid_move`: repeat a step until it reports a boundary or the budget is
spent. -/
def rapidN : Nat → (Buffer → Buffer × Bool) → Buffer → Buffer
  | 0, _, b => b
  | n + 1, f, b =>
      let r := f b
      if r.2 then rapidN n f r.1 else r.1

def rapid_up (b : Buffer) : Buffer :=
  let b := { b with dirty := true, selection_origin := none }
  rapidN (max (b.lines.length / 10) 5) move_up b

def rapid_down (b : Buffer) : Buffer :=
  let b := { b with dirty := true, selection_origin := none }
  rapidN (max (b.lines.length / 10) 5) move_down b

def select_right (b : Buffer) : Buffer :=
  let b := { b with dirty := true }
  if b.col < b.curLine.length - 1 then
    let b :=
      if b.selection_origin = none then
        { b with selection_origin := some (min b.col (b.curLine.length - 1)) }
      else b
    { b with col := b.col + 1 }
  else b

def select_left (b : Buffer) : Buffer :=
  let b := { b with dirty := true }
  if 0 < b.col then
    let b :=
      if b.selection_origin = none then
        { b with selection_origin := some (min b.col (b.curLine.length - 1)) }
      else b
    { b with col := b.col - 1 }
  else b

end Buffer

/-- The structural invariant of the buffer: at least one row, the cursor row
in range, the cursor column at most the current row's length (one past the
end permitted). -/
def BufInv (b : Buffer) : Prop :=
  0 < b.lines.length ∧ b.row < b.lines.length ∧ b.col ≤ b.curLine.length

-- -------------------- Input state (src/state.rs, src/key.rs) --------------------

inductive KanaState where
  | Hiragana (zenkaku : Bool)
  | Katakana (hankaku : Bool)
  | ToBeConverted (yomi : Str)
deriving DecidableEq, Repr

inductive InputState where
  | Latin (zenkaku : Bool)
  | Kana (romaji : Str) (state : KanaState)
  | Converting (yomi : Str) (candidates : List Str) (selected_index : Nat)
  | Abbrev (s : Str)
deriving DecidableEq, Repr

inductive Move where
  | Left | Right | Up | Down | RapidUp | RapidDown
  | LineHead | LineTail | SelectLeft | SelectRight
deriving DecidableEq, Repr

inductive KeyEvent where
  | Char (c : Char)
  | Backspace
  | Delete
  | Navigation (m : Move)
  | ToggleLatin
  | ToggleKatakana
  | ToggleHankakuZenkaku
  | CommitUnconverted
  | Setsuji
  | StartYomiOrOkuri (c : Char)
  | StartConversion
  | StartAbbrev
  | NextCandidate
  | PrevCandidate
  | CommitCandidate
  | CommitCandidateWithChar (c : Char)
  | CommitCandidateWithStartYomi (c : Char)
  | CommitCandidateWithSetsubiji
  | CancelConversion
deriving DecidableEq, Repr

/-- `InputState::new_converting`: a Converting state from a dictionary hit. -/
def new_converting (jisyo : Jisyo) (yomi : Str) : Option InputState :=
  (jisyo.lookup yomi).map (fun cands => .Converting yomi cands 0)

/-- `InputState::candidate`: the selected candidate split at the first `;`
into primary text and optional annotation.  The source `expect`s the index to
be in range; out of range is unreachable (see the Converting-state invariant)
and modelled by the empty candidate. -/
def candidateOf (cands : List Str) (idx : Nat) : Str × Option Str :=
  let cand := cands.getD idx []
  let pre := cand.takeWhile (fun c => c ≠ ';')
  match cand.dropWhile (fun c => c ≠ ';') with
  | [] => (pre, none)
  | _ :: rest => (pre, some rest)

/-- `InputState::okuri`: the trailing okurigana letter of a reading, unless
the reading is pure ASCII. -/
def okuri (yomi : Str) : Option Char :=
  if isAsciiStr yomi then none
  else
    match yomi.getLast? with
    | some c => if isAsciiLower c then some c else none
    | none => none

-- -------------------- Engine helpers (src/engine.rs) --------------------

/-- The two static conversion tables consumed by the engine (data, not part of
the verified core): the sorted romaji-to-hiragana table and the sorted
hiragana-to-halfwidth-katakana table. -/
structure Tables where
  romajiTable : List (Str × Str)
  halfwidthTable : List (Char × Str)
deriving DecidableEq

/-- `delete_setsuji`: remove every `>` boundary marker. -/
def delete_setsuji (s : Str) : Str := s.filter (fun c => c ≠ '>')

/-- `convert_to_katakana`: shift each hiragana code point (U+3041..U+3096) up
by 0x60. -/
def convert_to_katakana (s : Str) : Str :=
  s.map (fun c =>
    if 0x3041 ≤ c.toNat ∧ c.toNat ≤ 0x3096 then Char.ofNat (c.toNat + 0x60) else c)

/-- `convert_to_halfwidth_katakana`: per character, a binary search of the
sorted halfwidth table (modelled as a scan), falling back to
`convert_to_katakana`. -/
def convert_to_halfwidth_katakana (tb : Tables) (s : Str) : Str :=
  s.flatMap (fun c =>
    match tb.halfwidthTable.find? (fun kv => kv.1 = c) with
    | some kv => kv.2
    | none => convert_to_katakana [c])

/-- `convert_to_zenkaku_ascii`: map `!`..`~` into the fullwidth block and the
space to the ideographic space. -/
def convert_to_zenkaku_ascii (c : Char) : Char :=
  if '!' ≤ c ∧ c ≤ '~' then Char.ofNat (c.toNat + 0xFEE0)
  else if c = ' ' then '　'
  else c

/-- `commit_kana`: route resolved kana into the pending reading or the buffer
(converted for the katakana sub-modes). -/
def commit_kana (tb : Tables) (state : KanaState) (buffer : Buffer) (kana : Str) :
    KanaState × Buffer :=
  match state with
  | .ToBeConverted yomi => (.ToBeConverted (yomi ++ kana), buffer)
  | .Hiragana z => (.Hiragana z, buffer.insert_str kana)
  | .Katakana hankaku =>
      (.Katakana hankaku,
       buffer.insert_str
         (if hankaku then convert_to_halfwidth_katakana tb kana
          else convert_to_katakana kana))

-- -------------------- Mode handlers (src/engine.rs) --------------------

/-- `handle_latin`. -/
def handle_latin (zenkaku : Bool) (buffer : Buffer) (key : KeyEvent) :
    InputState × Buffer :=
  match key with
  | .Char c =>
      (.Latin zenkaku, buffer.insert_char (if zenkaku then convert_to_zenkaku_ascii c else c))
  | .ToggleHankakuZenkaku => (.Latin (!zenkaku), buffer)
  | .Backspace => (.Latin zenkaku, buffer.backspace)
  | .ToggleLatin => (.Kana [] (.Hiragana false), buffer)
  | _ => (.Latin zenkaku, buffer)

/-- `handle_abbrev`. -/
def handle_abbrev (jisyo : Jisyo) (s : Str) (buffer : Buffer) (key : KeyEvent) :
    InputState × Buffer :=
  match key with
  | .Char c => (.Abbrev (s ++ [c]), buffer)
  | .Backspace =>
      if s ≠ [] then (.Abbrev s.dropLast, buffer)
      else (.Kana [] (.Hiragana false), buffer)
  | .CommitUnconverted => (.Kana [] (.Hiragana false), buffer.insert_str s)
  | .StartConversion =>
      match new_converting jisyo s with
      | some c => (c, buffer)
      | none => (.Abbrev s, buffer)
  | _ => (.Abbrev s, buffer)

/-- The `Char(c)` arm of `handle_kana`: push the character onto the romaji
accumulator and resolve it against the transliteration table. -/
def handle_kana_char (tb : Tables) (romaji : Str) (state : KanaState)
    (buffer : Buffer) (c : Char) : InputState × Buffer :=
  let romaji' := romaji ++ [c]
  match search_lookup_table tb.romajiTable romaji' with
  | .Success kana =>
      let r := commit_kana tb state buffer kana.commit
      (.Kana kana.pushback r.1, r.2)
  | .Failure =>
      match state with
      | .ToBeConverted y => (.Kana romaji (.ToBeConverted y), buffer)
      | _ =>
          if (isAsciiPunct c || isAsciiDigit c) && romaji = [] then
            (.Kana romaji state,
             buffer.insert_char
               (if state = .Hiragana true then convert_to_zenkaku_ascii c else c))
          else (.Kana romaji state, buffer)
  | .PrefixMatch => (.Kana romaji' state, buffer)

/-- `handle_kana`.  The source's recursive call for `StartYomiOrOkuri` feeds a
plain character, which lands in the `Char` arm; it is expressed through
`handle_kana_char` directly. -/
def handle_kana (tb : Tables) (jisyo : Jisyo) (romaji : Str) (state : KanaState)
    (buffer : Buffer) (key : KeyEvent) : InputState × Buffer :=
  match key with
  | .ToggleLatin => (.Latin false, buffer)
  | .StartAbbrev => (.Abbrev [], buffer)
  | .ToggleHankakuZenkaku =>
      let state' :=
        match state with
        | .Katakana h => KanaState.Katakana (!h)
        | .Hiragana z => KanaState.Hiragana (!z)
        | other => other
      (.Kana romaji state', buffer)
  | .ToggleKatakana =>
      match state with
      | .ToBeConverted y =>
          (.Kana [] (.Hiragana false),
           buffer.insert_str (convert_to_katakana (delete_setsuji y)))
      | .Hiragana _ => (.Kana romaji (.Katakana false), buffer)
      | .Katakana _ => (.Kana romaji (.Hiragana false), buffer)
  | .StartConversion =>
      match state with
      | .ToBeConverted y =>
          if y ≠ ['>'] then
            match new_converting jisyo y with
            | some c => (c, buffer)
            | none => (.Kana romaji (.ToBeConverted y), buffer)
          else (.Kana romaji (.ToBeConverted y), buffer)
      | _ => (.Kana romaji state, buffer)
  | .Backspace =>
      if romaji ≠ [] then (.Kana romaji.dropLast state, buffer)
      else
        match state with
        | .ToBeConverted y =>
            if y ≠ [] then (.Kana romaji (.ToBeConverted y.dropLast), buffer)
            else (.Kana romaji (.Hiragana false), buffer)
        | _ => (.Kana romaji state, buffer.backspace)
  | .CommitUnconverted =>
      match state with
      | .ToBeConverted y =>
          (.Kana [] (.Hiragana false), buffer.insert_str (delete_setsuji y))
      | _ => (.Kana romaji state, buffer)
  | .Setsuji =>
      if romaji = [] then
        match state with
        | .ToBeConverted y =>
            if y ≠ [] then
              match new_converting jisyo (y ++ ['>']) with
              | some c => (c, buffer)
              | none => (.Kana romaji (.ToBeConverted (y ++ ['>'])), buffer)
            else (.Kana romaji (.ToBeConverted ['>']), buffer)
        | _ => (.Kana romaji (.ToBeConverted ['>']), buffer)
      else (.Kana romaji state, buffer)
  | .StartYomiOrOkuri c =>
      if romaji = [] then
        match state with
        | .ToBeConverted y =>
            if y ≠ [] then
              match new_converting jisyo (y ++ [c]) with
              | some conv => (conv, buffer)
              | none => (.Kana romaji (.ToBeConverted y), buffer)
            else handle_kana_char tb [] (.ToBeConverted []) buffer c
        | _ => handle_kana_char tb [] (.ToBeConverted []) buffer c
      else (.Kana romaji state, buffer)
  | .Char c => handle_kana_char tb romaji state buffer c
  | _ => (.Kana romaji state, buffer)

/-- `commit_candidate`: insert the selected candidate's primary text, then
re-feed the trailing okurigana letter (when present) through the state machine
in the fresh Kana mode.  `hk` is the re-dispatch into `handle_key`. -/
def commit_candidate (tb : Tables)
    (hk : InputState → Buffer → KeyEvent → InputState × Buffer)
    (yomi : Str) (cands : List Str) (idx : Nat) (ks : KanaState) (b : Buffer) :
    InputState × Buffer :=
  let commit := (candidateOf cands idx).1
  let b := b.insert_str commit
  match okuri yomi with
  | some c => hk (.Kana [] ks) b (.Char c)
  | none => (.Kana [] ks, b)

/-- `handle_converting`.  `hk` is the synchronous re-dispatch into
`handle_key`. -/
def handle_converting (tb : Tables)
    (hk : InputState → Buffer → KeyEvent → InputState × Buffer)
    (yomi : Str) (cands : List Str) (idx : Nat) (b : Buffer) (key : KeyEvent) :
    InputState × Buffer :=
  match key with
  | .NextCandidate => (.Converting yomi cands (min (idx + 1) (cands.length - 1)), b)
  | .PrevCandidate => (.Converting yomi cands (idx - 1), b)
  | .CancelConversion =>
      if isAsciiStr yomi then (.Abbrev yomi, b)
      else
        let y :=
          match yomi.getLast? with
          | some c => if isAsciiLower c then yomi.dropLast else yomi
          | none => yomi
        (.Kana [] (.ToBeConverted y), b)
  | .CommitCandidate => commit_candidate tb hk yomi cands idx (.Hiragana false) b
  | .ToggleKatakana => commit_candidate tb hk yomi cands idx (.Katakana false) b
  | .StartAbbrev =>
      let r := commit_candidate tb hk yomi cands idx (.Hiragana false) b
      hk r.1 r.2 .StartAbbrev
  | .CommitCandidateWithStartYomi n =>
      let r := commit_candidate tb hk yomi cands idx (.Hiragana false) b
      hk r.1 r.2 (.StartYomiOrOkuri n)
  | .CommitCandidateWithSetsubiji =>
      let r := commit_candidate tb hk yomi cands idx (.Hiragana false) b
      hk r.1 r.2 .Setsuji
  | .CommitCandidateWithChar n =>
      let r := commit_candidate tb hk yomi cands idx (.Hiragana false) b
      hk r.1 r.2 (.Char n)
  | .Backspace =>
      let r := commit_candidate tb hk yomi cands idx (.Hiragana false) b
      hk r.1 r.2 .Backspace
  | _ => (.Converting yomi cands idx, b)

/-- `handle_key_cursor`: navigation and Delete act directly on the buffer,
bypassing the mode logic; `some` means the key was consumed. -/
def handle_key_cursor (b : Buffer) (key : KeyEvent) : Option Buffer :=
  match key with
  | .Navigation .Left => some (b.move_left).1
  | .Navigation .Right => some (b.move_right).1
  | .Navigation .Up => some (b.move_up).1
  | .Navigation .Down => some (b.move_down).1
  | .Navigation .RapidUp => some b.rapid_up
  | .Navigation .RapidDown => some b.rapid_down
  | .Navigation .LineHead => some b.to_line_head
  | .Navigation .LineTail => some b.to_line_tail
  | .Navigation .SelectLeft => some b.select_left
  | .Navigation .SelectRight => some b.select_right
  | .Delete => some b.delete
  | _ => none

/-- `handle_key`, with an explicit bound on the depth of the synchronous
re-dispatch recursion.  Fuel 0 returns the arguments unchanged; the
fuel-stability theorem shows any fuel of at least 2 computes the same
function, so the recursion depth is bounded. -/
def handleKeyF (tb : Tables) (jisyo : Jisyo) :
    Nat → InputState → Buffer → KeyEvent → InputState × Buffer
  | 0, s, b, _ => (s, b)
  | fuel + 1, s, b, key =>
      match handle_key_cursor b key with
      | some b' => (s, b')
      | none =>
          match s with
          | .Kana romaji st => handle_kana tb jisyo romaji st b key
          | .Converting y c i =>
              handle_converting tb (handleKeyF tb jisyo fuel) y c i b key
          | .Latin z => handle_latin z b key
          | .Abbrev a => handle_abbrev jisyo a b key

/-- `handle_key`: the pure state-transition function of the engine. -/
def handleKey (tb : Tables) (jisyo : Jisyo) (s : InputState) (b : Buffer)
    (key : KeyEvent) : InputState × Buffer :=
  handleKeyF tb jisyo 2 s b key

-- -------------------- Statement vocabulary --------------------

/-- `e` is the lexicographically-next table entry after the fragment: it is in
the table, its key is above the fragment, and every other entry above the
fragment is at or beyond it. -/
def isLexNext (table : List (Str × Str)) (romaji : Str) (e : Str × Str) : Prop :=
  e ∈ table ∧ strLt romaji e.1 = true ∧
    ∀ e' ∈ table, strLt romaji e'.1 = true → e = e' ∨ strLt e.1 e'.1 = true

/-- A reading with one trailing okurigana letter stripped, if present. -/
def stripOkuri (y : Str) : Str :=
  match y.getLast? with
  | some c => if isAsciiLower c then y.dropLast else y
  | none => y

/-- Whether a state is a Kana mode carrying a pending `ToBeConverted`
reading. -/
def isPendingKana : InputState → Bool
  | .Kana _ (.ToBeConverted _) => true
  | _ => false

/-- The invariant of every Converting state the engine constructs: a
non-empty candidate list and an in-range selected index. -/
def goodState : InputState → Prop
  | .Converting _ cands idx => cands ≠ [] ∧ idx < cands.length
  | _ => True

/-- The variant of `Buffer.insert_char` that claim C5 describes: delete the
selected range first whenever a selection is active, and only then split the
row or insert the character. -/
def insertCharClaim (b : Buffer) (c : Char) : Buffer :=
  let b := { b with dirty := true }
  let b := if b.selection_origin.isSome then b.delete_range else b
  if c = '\n' then b.newline
  else { b.setCurLine (insAt b.col c b.curLine) with col := b.col + 1 }

/-- The amended description of `Buffer.insert_char`: a line separator splits
the current row at the cursor, merely clearing (not deleting) an active
selection; any other character deletes the selected range first and then
inserts at the cursor column. -/
def insertCharAmended (b : Buffer) (c : Char) : Buffer :=
  if c = '\n' then Buffer.newline { b with dirty := true }
  else
    let b := { b with dirty := true }
    let b := if b.selection_origin.isSome then b.delete_range else b
    { b.setCurLine (insAt b.col c b.curLine) with col := b.col + 1 }

-- -------------------- Concrete data for witnesses and counterexamples ----------

/-- A one-entry romaji table (the entry is part of the real static table). -/
def tb0 : Tables := ⟨[(['a'], ['あ'])], []⟩

def jisyoEmpty : Jisyo := ⟨[]⟩

/-- Two sources for the dictionary example: the first maps あい to 愛, 相 and
the second maps あい to 合. -/
def jAi : Jisyo := ⟨[⟨["あい /愛/相/".toList]⟩, ⟨["あい /合/".toList]⟩]⟩

/-- A source whose only line matches the reading あい but carries an empty
candidate list. -/
def jSlash : Jisyo := ⟨[⟨["あい /".toList]⟩]⟩

/-- A source with a pure-ASCII reading, as produced by Abbrev-mode entries. -/
def jAbc : Jisyo := ⟨[⟨["abc /X/".toList]⟩]⟩

/-- A buffer holding the single row `abc` with an active selection over its
first two characters (origin 0, cursor column 1). -/
def bSel : Buffer := ((Buffer.init.insert_str "abc".toList).to_line_head).select_right

-- ==================== Theorems ====================

-- -------------------- Buffer helper lemmas --------------------

theorem deleteOnCursor_dirty (b : Buffer) : (b.delete_on_cursor).1.dirty = b.dirty := by
  unfold Buffer.delete_on_cursor
  split <;> rfl

theorem deleteN_dirty (n : Nat) (b : Buffer) : (Buffer.deleteN n b).dirty = b.dirty := by
  induction n generalizing b with
  | zero => rfl
  | succ n ih => rw [Buffer.deleteN, ih, deleteOnCursor_dirty]

theorem delete_range_dirty (b : Buffer) : (b.delete_range).dirty = true := by
  unfold Buffer.delete_range
  cases b.selection_origin <;> simp [deleteN_dirty]

theorem newline_dirty (b : Buffer) : (b.newline).dirty = b.dirty := by
  simp [Buffer.newline, Buffer.setCurLine]

/-- C5, corrected: `insert_char` sets the dirty flag and behaves as
`insertCharAmended` describes — a line separator splits the current row at the
cursor and merely clears an active selection, while any other character first
deletes the selected range and then inserts at the cursor column. -/
theorem c5_insert_char_amended (b : Buffer) (c : Char) :
    b.insert_char c = insertCharAmended b c ∧ (b.insert_char c).dirty = true := by
  constructor
  · unfold Buffer.insert_char insertCharAmended
    by_cases h : c = '\n' <;> simp [h]
  · unfold Buffer.insert_char
    by_cases h : c = '\n'
    · simp [h, newline_dirty]
    · simp only [h, if_false]
      by_cases hs : b.selection_origin.isSome <;>
        simp [hs, Buffer.setCurLine, delete_range_dirty]

/-- C5, counterexample: on a buffer with an active selection, inserting the
line separator does not delete the selected range first, contrary to the
claim's ordering. -/
theorem c5_counterexample : bSel.insert_char '\n' ≠ insertCharClaim bSel '\n' := by decide

-- -------------------- Buffer invariant lemmas (C6) --------------------

theorem getD_set_self {α : Type} (l : List α) (n : Nat) (a d : α) (h : n < l.length) :
    (l.set n a).getD n d = a := by
  rw [List.getD_eq_getElem?_getD, List.getElem?_set_self']
  simp [List.getElem?_eq_getElem h]

theorem length_insAt {α : Type} (n : Nat) (x : α) (l : List α) :
    (insAt n x l).length = l.length + 1 := by
  induction l generalizing n with
  | nil => cases n <;> rfl
  | cons y ys ih => cases n <;> simp [insAt, ih]

theorem inv_clear (b : Buffer) : BufInv b.clear := by
  simp [Buffer.clear, BufInv, Buffer.curLine]

theorem inv_delete_on_cursor (b : Buffer) (h : BufInv b) : BufInv (b.delete_on_cursor).1 := by
  obtain ⟨h1, h2, h3⟩ := h
  unfold Buffer.delete_on_cursor
  split
  next hlt =>
    refine ⟨?_, ?_, ?_⟩
    · simpa [Buffer.setCurLine] using h1
    · simpa [Buffer.setCurLine] using h2
    · have : (b.curLine.eraseIdx b.col).length = b.curLine.length - 1 :=
        List.length_eraseIdx_of_lt hlt
      simp only [Buffer.setCurLine, Buffer.curLine] at *
      rw [getD_set_self _ _ _ _ h2, this]
      omega
  next => exact ⟨h1, h2, h3⟩

theorem inv_deleteN (n : Nat) (b : Buffer) (h : BufInv b) : BufInv (Buffer.deleteN n b) := by
  induction n generalizing b with
  | zero => exact h
  | succ n ih => exact ih _ (inv_delete_on_cursor _ h)

theorem inv_delete_range (b : Buffer) (h : BufInv b) : BufInv b.delete_range := by
  obtain ⟨h1, h2, h3⟩ := h
  unfold Buffer.delete_range
  cases hso : b.selection_origin with
  | none => exact ⟨h1, h2, h3⟩
  | some origin =>
    simp only []
    have hmid : BufInv (Buffer.mk b.lines b.row (min b.col origin) (some origin) true) :=
      ⟨h1, h2, by simp only [Buffer.curLine, List.getD_eq_getElem?_getD] at h3 ⊢; omega⟩
    have := inv_deleteN (max b.col origin - min b.col origin + 1) _ hmid
    exact ⟨this.1, this.2.1, this.2.2⟩

theorem inv_newline (b : Buffer) (h : BufInv b) : BufInv b.newline := by
  obtain ⟨h1, h2, h3⟩ := h
  unfold Buffer.newline
  refine ⟨?_, ?_, ?_⟩
  · simp [Buffer.setCurLine, length_insAt]
  · simp [Buffer.setCurLine, length_insAt]; omega
  · simp

theorem inv_insert_char (b : Buffer) (c : Char) (h : BufInv b) : BufInv (b.insert_char c) := by
  unfold Buffer.insert_char
  by_cases hc : c = '\n'
  · simp only [hc, if_pos rfl]
    exact inv_newline _ ⟨h.1, h.2.1, h.2.2⟩
  · simp only [hc, if_false]
    have hb : BufInv (if ({ b with dirty := true } : Buffer).selection_origin.isSome then
        ({ b with dirty := true } : Buffer).delete_range else { b with dirty := true }) := by
      split
      · exact inv_delete_range _ ⟨h.1, h.2.1, h.2.2⟩
      · exact ⟨h.1, h.2.1, h.2.2⟩
    obtain ⟨g1, g2, g3⟩ := hb
    refine ⟨?_, ?_, ?_⟩
    · simpa [Buffer.setCurLine] using g1
    · simpa [Buffer.setCurLine] using g2
    · simp only [Buffer.setCurLine, Buffer.curLine] at *
      rw [getD_set_self _ _ _ _ g2, length_insAt]
      omega

theorem inv_insert_str (b : Buffer) (s : Str) (h : BufInv b) : BufInv (b.insert_str s) := by
  unfold Buffer.insert_str
  induction s generalizing b with
  | nil => exact h
  | cons c cs ih => exact ih _ (inv_insert_char _ _ h)

theorem inv_move_up (b : Buffer) (h : BufInv b) : BufInv (b.move_up).1 := by
  obtain ⟨h1, h2, h3⟩ := h
  simp only [Buffer.move_up]
  split
  · exact ⟨h1, by simp; omega, by simp [Buffer.curLine]⟩
  · exact ⟨h1, h2, h3⟩

theorem inv_move_down (b : Buffer) (h : BufInv b) : BufInv (b.move_down).1 := by
  obtain ⟨h1, h2, h3⟩ := h
  simp only [Buffer.move_down]
  split
  next hlt => exact ⟨h1, by simpa using hlt, by simp [Buffer.curLine]⟩
  · exact ⟨h1, h2, h3⟩

theorem inv_to_line_head (b : Buffer) (h : BufInv b) : BufInv b.to_line_head :=
  ⟨h.1, h.2.1, by simp [Buffer.to_line_head, Buffer.curLine]⟩

theorem inv_to_line_tail (b : Buffer) (h : BufInv b) : BufInv b.to_line_tail :=
  ⟨h.1, h.2.1, by simp [Buffer.to_line_tail, Buffer.curLine]⟩

theorem inv_move_left (b : Buffer) (h : BufInv b) : BufInv (b.move_left).1 := by
  obtain ⟨h1, h2, h3⟩ := h
  simp only [Buffer.move_left]
  split
  · exact ⟨h1, h2, by simp [Buffer.curLine] at *; omega⟩
  · split
    · exact inv_to_line_tail _ (inv_move_up _ ⟨h1, h2, h3⟩)
    · exact inv_move_up _ ⟨h1, h2, h3⟩

theorem inv_move_right (b : Buffer) (h : BufInv b) : BufInv (b.move_right).1 := by
  obtain ⟨h1, h2, h3⟩ := h
  simp only [Buffer.move_right]
  split
  next hlt => exact ⟨h1, h2, by simp [Buffer.curLine] at *; omega⟩
  · split
    · exact inv_to_line_head _ (inv_move_down _ ⟨h1, h2, h3⟩)
    · exact inv_move_down _ ⟨h1, h2, h3⟩

theorem inv_concatenate (b : Buffer) (h : BufInv b) : BufInv b.concatenate_cur_next_lines := by
  obtain ⟨h1, h2, h3⟩ := h
  unfold Buffer.concatenate_cur_next_lines
  split
  next hlt =>
    have hlen : (b.lines.eraseIdx (b.row + 1)).length = b.lines.length - 1 :=
      List.length_eraseIdx_of_lt (by omega)
    refine ⟨?_, ?_, ?_⟩
    · simp [hlen]; omega
    · simp [hlen]; omega
    · have hrow : b.row < (b.lines.eraseIdx (b.row + 1)).length := by omega
      have hget : (b.lines.eraseIdx (b.row + 1)).getD b.row [] = b.lines.getD b.row [] := by
        rw [List.getD_eq_getElem?_getD, List.getD_eq_getElem?_getD,
          List.getElem?_eraseIdx_of_lt _ _ _ (by omega)]
      simp only [Buffer.curLine] at *
      rw [getD_set_self _ _ _ _ hrow, hget, List.length_append]
      omega
  · exact ⟨h1, h2, h3⟩

theorem inv_delete (b : Buffer) (h : BufInv b) : BufInv b.delete := by
  simp only [Buffer.delete]
  have h' : BufInv { b with dirty := true } := ⟨h.1, h.2.1, h.2.2⟩
  split
  · exact inv_delete_range _ h'
  · split
    · exact inv_delete_on_cursor _ h'
    · exact inv_concatenate _ (inv_delete_on_cursor _ h')

theorem inv_backspace (b : Buffer) (h : BufInv b) : BufInv b.backspace := by
  simp only [Buffer.backspace]
  split
  · exact inv_delete_range _ h
  · split
    · exact inv_delete _ (inv_move_left _ h)
    · exact inv_move_left _ h

theorem inv_rapidN (n : Nat) (f : Buffer → Buffer × Bool)
    (hf : ∀ b, BufInv b → BufInv (f b).1) (b : Buffer) (h : BufInv b) :
    BufInv (Buffer.rapidN n f b) := by
  induction n generalizing b with
  | zero => exact h
  | succ n ih =>
    simp only [Buffer.rapidN]
    split
    · exact ih _ (hf _ h)
    · exact hf _ h

theorem inv_rapid_up (b : Buffer) (h : BufInv b) : BufInv b.rapid_up :=
  inv_rapidN _ _ inv_move_up _ ⟨h.1, h.2.1, h.2.2⟩

theorem inv_rapid_down (b : Buffer) (h : BufInv b) : BufInv b.rapid_down :=
  inv_rapidN _ _ inv_move_down _ ⟨h.1, h.2.1, h.2.2⟩

theorem inv_select_right (b : Buffer) (h : BufInv b) : BufInv b.select_right := by
  obtain ⟨h1, h2, h3⟩ := h
  simp only [Buffer.select_right]
  split
  next hlt =>
    split <;> exact ⟨h1, h2, by simp [Buffer.curLine] at *; omega⟩
  · exact ⟨h1, h2, h3⟩

theorem inv_select_left (b : Buffer) (h : BufInv b) : BufInv b.select_left := by
  obtain ⟨h1, h2, h3⟩ := h
  simp only [Buffer.select_left]
  split
  · split <;> exact ⟨h1, h2, by simp [Buffer.curLine] at *; omega⟩
  · exact ⟨h1, h2, h3⟩

/-- C6: the buffer structural invariant — at least one row, cursor row in
range, cursor column at most the current row's length — holds for the initial
buffer and is preserved by every public buffer operation. -/
theorem c6_buffer_invariant :
    BufInv Buffer.init ∧
    ∀ b : Buffer, BufInv b →
      (∀ c, BufInv (b.insert_char c)) ∧ (∀ s, BufInv (b.insert_str s)) ∧
      BufInv b.clear ∧ BufInv b.backspace ∧ BufInv b.delete ∧ BufInv b.delete_range ∧
      BufInv (b.move_left).1 ∧ BufInv (b.move_right).1 ∧
      BufInv (b.move_up).1 ∧ BufInv (b.move_down).1 ∧
      BufInv b.rapid_up ∧ BufInv b.rapid_down ∧
      BufInv b.to_line_head ∧ BufInv b.to_line_tail ∧
      BufInv b.select_left ∧ BufInv b.select_right := by
  refine ⟨⟨by decide, by decide, by decide⟩, fun b h => ?_⟩
  exact ⟨fun c => inv_insert_char b c h, fun s => inv_insert_str b s h,
    inv_clear b, inv_backspace b h, inv_delete b h, inv_delete_range b h,
    inv_move_left b h, inv_move_right b h, inv_move_up b h, inv_move_down b h,
    inv_rapid_up b h, inv_rapid_down b h, inv_to_line_head b h, inv_to_line_tail b h,
    inv_select_left b h, inv_select_right b h⟩

/-- C6 witness: the invariant hypothesis discharged at a concrete buffer. -/
theorem c6_witness : BufInv bSel ∧ BufInv (bSel.insert_char 'x') :=
  have h : BufInv bSel := ⟨by decide, by decide, by decide⟩
  ⟨h, (c6_buffer_invariant.2 bSel h).1 'x'⟩

-- -------------------- Cursor motion lemmas (C7) --------------------

theorem move_left_pos (b : Buffer) (hc : 0 < b.col) :
    b.move_left = (⟨b.lines, b.row, b.col - 1, none, true⟩, true) := by
  simp [Buffer.move_left, hc]

theorem move_left_up (b : Buffer) (hc : b.col = 0) (hr : 0 < b.row) :
    b.move_left =
      (⟨b.lines, b.row - 1, (b.lines[b.row - 1]?.getD []).length, none, true⟩, true) := by
  simp [Buffer.move_left, Buffer.move_up, Buffer.to_line_tail, Buffer.curLine, hc, hr]

theorem move_left_start (b : Buffer) (hc : b.col = 0) (hr : b.row = 0) :
    b.move_left = (⟨b.lines, b.row, b.col, none, true⟩, false) := by
  simp [Buffer.move_left, Buffer.move_up, hc, hr]

theorem move_right_lt (b : Buffer) (hlt : b.col < (b.lines[b.row]?.getD []).length) :
    b.move_right = (⟨b.lines, b.row, b.col + 1, none, true⟩, true) := by
  simp [Buffer.move_right, Buffer.curLine, hlt]

theorem move_right_down (b : Buffer) (hge : ¬ b.col < (b.lines[b.row]?.getD []).length)
    (hr : b.row + 1 < b.lines.length) :
    b.move_right = (⟨b.lines, b.row + 1, 0, none, true⟩, true) := by
  simp [Buffer.move_right, Buffer.move_down, Buffer.to_line_head, Buffer.curLine, hge, hr]

theorem move_right_end (b : Buffer) (hge : ¬ b.col < (b.lines[b.row]?.getD []).length)
    (hr : ¬ b.row + 1 < b.lines.length) :
    b.move_right = (⟨b.lines, b.row, b.col, none, true⟩, false) := by
  simp [Buffer.move_right, Buffer.move_down, Buffer.curLine, hge, hr]

/-- C7: from any position other than the document start, `move_left` then
`move_right` returns the cursor to the original (row, col); at the document
start `move_left` reports false and leaves the cursor unchanged, and at the
document end `move_right` reports false and leaves the cursor unchanged. -/
theorem c7_move_roundtrip (b : Buffer) (h : BufInv b) :
    (¬(b.row = 0 ∧ b.col = 0) →
       ((b.move_left).1.move_right).1.row = b.row ∧
       ((b.move_left).1.move_right).1.col = b.col) ∧
    (b.row = 0 ∧ b.col = 0 →
       (b.move_left).2 = false ∧ (b.move_left).1.row = b.row ∧
       (b.move_left).1.col = b.col) ∧
    (b.row = b.lines.length - 1 ∧ b.col = b.curLine.length →
       (b.move_right).2 = false ∧ (b.move_right).1.row = b.row ∧
       (b.move_right).1.col = b.col) := by
  obtain ⟨h1, h2, h3⟩ := h
  have h3' : b.col ≤ (b.lines[b.row]?.getD []).length := by
    simpa [Buffer.curLine, List.getD_eq_getElem?_getD] using h3
  refine ⟨?_, ?_, ?_⟩
  · intro hne
    by_cases hc : 0 < b.col
    · rw [move_left_pos b hc]
      have hlt : b.col - 1 < (b.lines[b.row]?.getD []).length := by omega
      rw [move_right_lt _ hlt]
      exact ⟨rfl, by show b.col - 1 + 1 = b.col; omega⟩
    · have hc0 : b.col = 0 := by omega
      have hr0 : 0 < b.row := by
        rcases Nat.eq_zero_or_pos b.row with hz | hp
        · exact absurd ⟨hz, hc0⟩ hne
        · exact hp
      rw [move_left_up b hc0 hr0]
      have hge : ¬ ((b.lines[b.row - 1]?.getD []).length <
          (b.lines[b.row - 1]?.getD []).length) := by omega
      have hr : (b.row - 1) + 1 < b.lines.length := by omega
      rw [move_right_down _ hge hr]
      exact ⟨by show b.row - 1 + 1 = b.row; omega, by show (0 : Nat) = b.col; omega⟩
  · rintro ⟨hr0, hc0⟩
    rw [move_left_start b hc0 hr0]
    exact ⟨rfl, rfl, rfl⟩
  · rintro ⟨hrl, hcl⟩
    have hcl' : b.col = (b.lines[b.row]?.getD []).length := by
      simpa [Buffer.curLine, List.getD_eq_getElem?_getD] using hcl
    have hge : ¬ b.col < (b.lines[b.row]?.getD []).length := by omega
    have hrr : ¬ b.row + 1 < b.lines.length := by omega
    rw [move_right_end b hge hrr]
    exact ⟨rfl, rfl, rfl⟩

/-- C7 witness: the hypotheses discharged at a concrete two-row buffer with
the cursor away from the document start. -/
theorem c7_witness :
    BufInv (Buffer.init.insert_str ['a', '\n', 'b']) ∧
    ¬((Buffer.init.insert_str ['a', '\n', 'b']).row = 0 ∧
      (Buffer.init.insert_str ['a', '\n', 'b']).col = 0) ∧
    (((Buffer.init.insert_str ['a', '\n', 'b']).move_left).1.move_right).1.row =
      (Buffer.init.insert_str ['a', '\n', 'b']).row :=
  have h : BufInv (Buffer.init.insert_str ['a', '\n', 'b']) :=
    ⟨by decide, by decide, by decide⟩
  have hne : ¬((Buffer.init.insert_str ['a', '\n', 'b']).row = 0 ∧
      (Buffer.init.insert_str ['a', '\n', 'b']).col = 0) := by decide
  ⟨h, hne, ((c7_move_roundtrip (Buffer.init.insert_str ['a', '\n', 'b']) h).1 hne).1⟩

-- -------------------- Dictionary lookup (C4) --------------------

/-- C4, amended: `Jisyo::lookup` returns the concatenation, in configured
source order, of the parsed candidate lists of each source's exactly-matching
entry line; it returns `none` exactly when that concatenation is empty — a
source whose matching line parses to an empty candidate list counts as a miss.
The two-source example behaves as specified. -/
theorem c4_lookup_concat (j : Jisyo) (y : Str) :
    (j.lookup y = none ↔ ∀ s ∈ j.sources, (s.lookup y).getD [] = []) ∧
    (∀ cs, j.lookup y = some cs →
       cs = (j.sources.map (fun s => (s.lookup y).getD [])).flatten ∧ cs ≠ []) ∧
    jAi.lookup "あい".toList = some ["愛".toList, "相".toList, "合".toList] ∧
    jAi.lookup "xyz".toList = none := by
  refine ⟨?_, ?_, by decide, by decide⟩
  · simp only [Jisyo.lookup]
    split
    next he => simpa [List.flatten_eq_nil_iff] using he
    next he =>
      constructor
      · intro hn
        exact absurd hn (by simp)
      · intro hall
        exact absurd (by simpa [List.flatten_eq_nil_iff] using hall) he
  · intro cs hcs
    simp only [Jisyo.lookup] at hcs
    split at hcs
    next => exact absurd hcs (by simp)
    next he =>
      exact ⟨by injection hcs with h; exact h.symm,
             by injection hcs with h; rw [h] at he; exact he⟩

/-- C4 witness: the lookup-miss characterisation applied to the concrete
two-source dictionary at a reading neither source carries. -/
theorem c4_witness : jAi.lookup "かき".toList = none :=
  (c4_lookup_concat jAi "かき".toList).1.mpr (by decide)

/-- C4 counterexample: a source whose line `あい /` exactly matches the
reading — its per-source lookup succeeds, so the source does not miss — yet
the dictionary returns "not found" because the parsed candidate list is
empty, contradicting the claim that `None` occurs only when every source
misses the reading. -/
theorem c4_counterexample :
    jSlash.lookup "あい".toList = none ∧
    (SingleJisyo.mk ["あい /".toList]).lookup "あい".toList = some [] := by
  exact ⟨by decide, by decide⟩

-- -------------------- Cancel conversion (C2) --------------------

/-- C2, amended: cancelling a Converting state reached by a dictionary query
on `yomi` never touches the buffer, and restores a Kana mode whose pending
`ToBeConverted` reading is `yomi` with one trailing okurigana letter stripped
if present — except that a pure-ASCII `yomi` instead reverts to Abbrev mode
carrying `yomi`. -/
theorem c2_cancel_restores_reading (tb : Tables) (jisyo : Jisyo) (y : Str)
    (cands : List Str) (i : Nat) (b : Buffer)
    (_hq : jisyo.lookup y = some cands) :
    handleKey tb jisyo (.Converting y cands i) b .CancelConversion =
      ((if isAsciiStr y then .Abbrev y else .Kana [] (.ToBeConverted (stripOkuri y))), b) := by
  by_cases h : isAsciiStr y <;>
    simp [handleKey, handleKeyF, handle_key_cursor, handle_converting, stripOkuri, h]

/-- C2 witness: the amended statement applied to the two-source dictionary
whose query on あい produced the candidate list. -/
theorem c2_witness :
    jAi.lookup "あい".toList = some ["愛".toList, "相".toList, "合".toList] ∧
    handleKey tb0 jAi
        (.Converting "あい".toList ["愛".toList, "相".toList, "合".toList] 0)
        Buffer.init .CancelConversion =
      ((if isAsciiStr "あい".toList then .Abbrev "あい".toList
        else .Kana [] (.ToBeConverted (stripOkuri "あい".toList))), Buffer.init) :=
  ⟨by decide,
   c2_cancel_restores_reading tb0 jAi "あい".toList
     ["愛".toList, "相".toList, "合".toList] 0 Buffer.init (by decide)⟩

/-- C2 counterexample: a Converting state reached by a dictionary query on the
pure-ASCII reading `abc` cancels into Abbrev mode, not into a Kana mode with a
pending reading as the claim states. -/
theorem c2_counterexample :
    jAbc.lookup "abc".toList = some ["X".toList] ∧
    handleKey tb0 jAbc (.Converting "abc".toList ["X".toList] 0) Buffer.init
        .CancelConversion = (.Abbrev "abc".toList, Buffer.init) ∧
    isPendingKana (handleKey tb0 jAbc (.Converting "abc".toList ["X".toList] 0)
        Buffer.init .CancelConversion).1 = false := by
  exact ⟨by decide, by decide, by decide⟩

-- -------------------- Pure-ASCII readings never re-feed okurigana (C10) ------

/-- C10: a pure-ASCII reading has no okurigana letter, so committing a
candidate obtained from it inserts only the candidate's primary text and
performs no re-feed through the state machine — the result does not depend on
the re-dispatch function at all. -/
theorem c10_ascii_no_okuri (tb : Tables)
    (hk : InputState → Buffer → KeyEvent → InputState × Buffer)
    (y : Str) (cands : List Str) (idx : Nat) (ks : KanaState) (b : Buffer)
    (h : isAsciiStr y = true) :
    okuri y = none ∧
    commit_candidate tb hk y cands idx ks b =
      (.Kana [] ks, b.insert_str (candidateOf cands idx).1) := by
  have ho : okuri y = none := by simp [okuri, h]
  exact ⟨ho, by simp [commit_candidate, ho]⟩

/-- C10 witness: the ASCII hypothesis discharged at the reading `ab` with an
annotated candidate. -/
theorem c10_witness :
    isAsciiStr "ab".toList = true ∧
    (okuri "ab".toList = none ∧
     commit_candidate tb0 (handleKey tb0 jisyoEmpty) "ab".toList
         ["X;note".toList] 0 (.Hiragana false) Buffer.init =
       (.Kana [] (.Hiragana false),
        Buffer.init.insert_str (candidateOf ["X;note".toList] 0).1)) :=
  ⟨by decide,
   c10_ascii_no_okuri tb0 (handleKey tb0 jisyoEmpty) "ab".toList
     ["X;note".toList] 0 (.Hiragana false) Buffer.init (by decide)⟩

-- -------------------- Matcher trichotomy (C3) --------------------

theorem strLt_irrefl (s : Str) : strLt s s = false := by
  induction s with
  | nil => rfl
  | cons c t ih => simp [strLt, ih]

theorem strLt_asymm {a b : Str} (h : strLt a b = true) : strLt b a = false := by
  induction a generalizing b with
  | nil =>
    cases b with
    | nil => simp [strLt] at h
    | cons y ys => simp [strLt]
  | cons x xs ih =>
    cases b with
    | nil => simp [strLt] at h
    | cons y ys =>
      simp only [strLt] at h ⊢
      rcases lt_trichotomy x y with hlt | heq | hgt
      · have hn : ¬ y < x := lt_asymm hlt
        simp [hlt, hn]
      · subst heq
        simp only [lt_irrefl, if_false] at h ⊢
        exact ih h
      · have hn : ¬ x < y := lt_asymm hgt
        simp [hgt, hn] at h

theorem strLt_conn {a b : Str} (h1 : strLt a b = false) (h2 : strLt b a = false) :
    a = b := by
  induction a generalizing b with
  | nil =>
    cases b with
    | nil => rfl
    | cons y ys => simp [strLt] at h1
  | cons x xs ih =>
    cases b with
    | nil => simp [strLt] at h2
    | cons y ys =>
      simp only [strLt] at h1 h2
      rcases lt_trichotomy x y with hlt | heq | hgt
      · simp [hlt] at h1
      · subst heq
        simp only [lt_irrefl, if_false] at h1 h2
        rw [ih h1 h2]
      · simp [hgt, lt_asymm hgt] at h2

theorem get_takeWhile_len {α : Type} (p : α → Bool) (l : List α) :
    l.get? (l.takeWhile p).length = (l.dropWhile p).head? := by
  induction l with
  | nil => rfl
  | cons x t ih =>
    rw [List.get?_eq_getElem?] at ih
    by_cases hp : p x <;>
      simp [List.takeWhile_cons, List.dropWhile_cons, hp, ih]

theorem head?_dropWhile_false {α : Type} (p : α → Bool) (l : List α) {a : α}
    (h : (l.dropWhile p).head? = some a) : p a = false := by
  induction l with
  | nil => simp at h
  | cons x t ih =>
    by_cases hp : p x
    · rw [List.dropWhile_cons, if_pos (by simpa using hp)] at h
      exact ih h
    · rw [List.dropWhile_cons, if_neg (by simpa using hp)] at h
      simp only [List.head?] at h
      injection h with h
      subst h
      simpa using hp

theorem dropWhile_head_exact (table : List (Str × Str)) (romaji conv : Str)
    (hsort : table.Pairwise (fun a b => strLt a.1 b.1 = true))
    (hmem : (romaji, conv) ∈ table) :
    (table.dropWhile (fun kv => strLt kv.1 romaji)).head? = some (romaji, conv) := by
  induction table with
  | nil => simp at hmem
  | cons e rest ih =>
    rcases List.mem_cons.mp hmem with he | hr
    · rw [← he]
      simp [List.dropWhile_cons, strLt_irrefl]
    · have hlt : strLt e.1 romaji = true := (List.pairwise_cons.mp hsort).1 (romaji, conv) hr
      rw [List.dropWhile_cons, if_pos (by simpa using hlt)]
      exact ih (List.pairwise_cons.mp hsort).2 hr

/-- C3: for a strictly sorted table and a non-empty fragment,
`search_lookup_table` answers Success on an exact key match — with the commit
everything before a trailing ASCII-lowercase letter of the mapped value and
that letter as pushback, otherwise the whole value with empty pushback —
PrefixMatch when there is no exact match but the lexicographically-next table
entry has the fragment as a (necessarily proper) prefix, and Failure
otherwise. -/
theorem c3_search_trichotomy (table : List (Str × Str)) (romaji : Str)
    (hne : romaji ≠ [])
    (hsort : table.Pairwise (fun a b => strLt a.1 b.1 = true)) :
    (∀ conv, (romaji, conv) ∈ table →
       search_lookup_table table romaji =
         (match conv.getLast? with
          | some c =>
              if isAsciiLower c then KanaMatch.Success ⟨conv.dropLast, [c]⟩
              else KanaMatch.Success ⟨conv, []⟩
          | none => KanaMatch.Success ⟨conv, []⟩)) ∧
    ((¬ ∃ conv, (romaji, conv) ∈ table) →
       (∀ e, isLexNext table romaji e → romaji <+: e.1 →
          search_lookup_table table romaji = .PrefixMatch) ∧
       ((∀ e, isLexNext table romaji e → ¬ romaji <+: e.1) →
          search_lookup_table table romaji = .Failure)) := by
  unfold search_lookup_table
  rw [if_neg hne]
  simp only [get_takeWhile_len]
  cases hD : (table.dropWhile (fun kv => strLt kv.1 romaji)).head? with
  | none =>
    have hdnil : table.dropWhile (fun kv => strLt kv.1 romaji) = [] :=
      List.head?_eq_none_iff.mp hD
    constructor
    · intro conv hmem
      have := dropWhile_head_exact table romaji conv hsort hmem
      rw [hD] at this
      exact absurd this (by simp)
    · intro _
      refine ⟨?_, fun _ => rfl⟩
      intro e hen _
      exfalso
      obtain ⟨hmem, hgt, _⟩ := hen
      have hsplit := List.takeWhile_append_dropWhile
        (p := fun kv => strLt kv.1 romaji) (l := table)
      rw [hdnil, List.append_nil] at hsplit
      rw [← hsplit] at hmem
      have hp : strLt e.1 romaji = true := by
        simpa using List.mem_takeWhile_imp hmem
      rw [strLt_asymm hgt] at hp
      exact absurd hp (by simp)
  | some kv =>
    obtain ⟨k, conv0⟩ := kv
    have hmemD : (k, conv0) ∈ table :=
      (List.dropWhile_suffix _).subset (List.mem_of_mem_head? (Option.mem_def.mpr hD))
    have hpf : strLt k romaji = false := by
      simpa using head?_dropWhile_false _ _ hD
    constructor
    · intro conv hmem
      have hexact := dropWhile_head_exact table romaji conv hsort hmem
      rw [hD] at hexact
      injection hexact with hkv
      have hk : k = romaji := congrArg Prod.fst hkv
      have hc : conv0 = conv := congrArg Prod.snd hkv
      subst hk
      subst hc
      simp only [if_pos rfl]
      unfold splitTrailing
      cases hgl : conv0.getLast? with
      | none => rfl
      | some c => by_cases hl : isAsciiLower c <;> simp [hl]
    · intro hnex
      have hkne : k ≠ romaji := fun he => hnex ⟨conv0, he ▸ hmemD⟩
      have hgt : strLt romaji k = true := by
        cases hx : strLt romaji k with
        | true => rfl
        | false => exact absurd (strLt_conn hx hpf) (fun h => hkne h.symm)
      obtain ⟨tl, htl⟩ := List.head?_eq_some_iff.mp hD
      have hlexkv : isLexNext table romaji (k, conv0) := by
        refine ⟨hmemD, hgt, ?_⟩
        intro e' hmem' hgt'
        have hsplit := List.takeWhile_append_dropWhile
          (p := fun kv => strLt kv.1 romaji) (l := table)
        rw [← hsplit] at hmem'
        rcases List.mem_append.mp hmem' with hin | hin
        · exfalso
          have hp : strLt e'.1 romaji = true := by
            simpa using List.mem_takeWhile_imp hin
          rw [strLt_asymm hgt'] at hp
          exact absurd hp (by simp)
        · rw [htl] at hin
          rcases List.mem_cons.mp hin with he | he
          · exact Or.inl he.symm
          · have hpw : ((k, conv0) :: tl).Pairwise (fun a b => strLt a.1 b.1 = true) :=
              htl ▸ hsort.sublist (List.dropWhile_suffix _).sublist
            exact Or.inr ((List.pairwise_cons.mp hpw).1 e' he)
      constructor
      · intro e hen hpre
        have he : e = (k, conv0) := by
          obtain ⟨hm1, hg1, hmin1⟩ := hen
          rcases hmin1 (k, conv0) hmemD hgt with heq | hlt1
          · exact heq
          · rcases hlexkv.2.2 e hm1 hg1 with heq | hlt2
            · exact heq.symm
            · rw [strLt_asymm hlt1] at hlt2
              exact absurd hlt2 (by simp)
        have hpk : romaji <+: k := by
          have := he ▸ hpre
          exact this
        simp [hkne, List.isPrefixOf_iff_prefix, hpk]
      · intro hnopre
        have hnp : ¬ romaji <+: k := fun hp => hnopre (k, conv0) hlexkv hp
        simp [hkne, List.isPrefixOf_iff_prefix, hnp]

/-- C3 witness: the hypotheses discharged for a concrete two-entry sorted
table — the exact-match branch at `ka`. -/
theorem c3_witness :
    (['k', 'a'] : Str) ≠ [] ∧
    search_lookup_table [(['a'], ['あ']), (['k', 'a'], ['か'])] ['k', 'a'] =
      KanaMatch.Success ⟨['か'], []⟩ :=
  ⟨by decide,
   (c3_search_trichotomy [(['a'], ['あ']), (['k', 'a'], ['か'])] ['k', 'a']
       (by decide)
       (by simp [List.pairwise_cons]; decide)).1 ['か'] (by simp)⟩

-- -------------------- Engine recursion lemmas (C1, C8, C9) --------------------

theorem kana_char_fst (tb : Tables) (r : Str) (st : KanaState) (b : Buffer) (c : Char) :
    ∃ r' st', (handle_kana_char tb r st b c).1 = .Kana r' st' := by
  simp only [handle_kana_char]
  cases search_lookup_table tb.romajiTable (r ++ [c]) with
  | Success kana => exact ⟨_, _, rfl⟩
  | PrefixMatch => exact ⟨_, _, rfl⟩
  | Failure =>
    cases st with
    | ToBeConverted y => exact ⟨_, _, rfl⟩
    | Hiragana z =>
      refine ⟨r, .Hiragana z, ?_⟩
      dsimp only
      split <;> rfl
    | Katakana h =>
      refine ⟨r, .Katakana h, ?_⟩
      dsimp only
      split <;> rfl

theorem handleKeyF_fuel_nonconv (tb : Tables) (jisyo : Jisyo) (n m : Nat)
    (s : InputState) (b : Buffer) (k : KeyEvent)
    (hs : ∀ y c i, s ≠ .Converting y c i) :
    handleKeyF tb jisyo (n + 1) s b k = handleKeyF tb jisyo (m + 1) s b k := by
  cases s with
  | Converting y c i => exact absurd rfl (hs y c i)
  | Kana r st => cases hc : handle_key_cursor b k <;> simp [handleKeyF, hc]
  | Latin z => cases hc : handle_key_cursor b k <;> simp [handleKeyF, hc]
  | Abbrev a => cases hc : handle_key_cursor b k <;> simp [handleKeyF, hc]

theorem commit_candidate_fuel (tb : Tables) (jisyo : Jisyo) (n m : Nat) (y : Str)
    (cands : List Str) (idx : Nat) (ks : KanaState) (b : Buffer) :
    commit_candidate tb (handleKeyF tb jisyo (n + 1)) y cands idx ks b =
      commit_candidate tb (handleKeyF tb jisyo (m + 1)) y cands idx ks b := by
  simp only [commit_candidate]
  cases ho : okuri y with
  | none => rfl
  | some c =>
    exact handleKeyF_fuel_nonconv tb jisyo n m _ _ _
      (fun _ _ _ h => InputState.noConfusion h)

theorem commit_candidate_fst_kana (tb : Tables) (jisyo : Jisyo) (n : Nat) (y : Str)
    (cands : List Str) (idx : Nat) (ks : KanaState) (b : Buffer) :
    ∃ r st,
      (commit_candidate tb (handleKeyF tb jisyo (n + 1)) y cands idx ks b).1 =
        .Kana r st := by
  simp only [commit_candidate]
  cases ho : okuri y with
  | none => exact ⟨_, _, rfl⟩
  | some c =>
    have hred : handleKeyF tb jisyo (n + 1) (.Kana [] ks)
        (b.insert_str (candidateOf cands idx).1) (.Char c) =
        handle_kana_char tb [] ks (b.insert_str (candidateOf cands idx).1) c := rfl
    dsimp only
    rw [hred]
    exact kana_char_fst tb [] ks _ c

theorem handle_converting_fuel (tb : Tables) (jisyo : Jisyo) (n m : Nat) (y : Str)
    (cands : List Str) (idx : Nat) (b : Buffer) (k : KeyEvent) :
    handle_converting tb (handleKeyF tb jisyo (n + 1)) y cands idx b k =
      handle_converting tb (handleKeyF tb jisyo (m + 1)) y cands idx b k := by
  have redisp : ∀ k' : KeyEvent,
      (let r := commit_candidate tb (handleKeyF tb jisyo (n + 1)) y cands idx
          (.Hiragana false) b
       handleKeyF tb jisyo (n + 1) r.1 r.2 k') =
      (let r := commit_candidate tb (handleKeyF tb jisyo (m + 1)) y cands idx
          (.Hiragana false) b
       handleKeyF tb jisyo (m + 1) r.1 r.2 k') := by
    intro k'
    simp only []
    rw [commit_candidate_fuel tb jisyo n m y cands idx (.Hiragana false) b]
    obtain ⟨r', st', hr⟩ :=
      commit_candidate_fst_kana tb jisyo m y cands idx (.Hiragana false) b
    exact handleKeyF_fuel_nonconv tb jisyo n m _ _ _
      (fun _ _ _ h => by rw [hr] at h; cases h)
  cases k with
  | CommitCandidate => exact commit_candidate_fuel tb jisyo n m y cands idx (.Hiragana false) b
  | ToggleKatakana => exact commit_candidate_fuel tb jisyo n m y cands idx (.Katakana false) b
  | StartAbbrev => exact redisp .StartAbbrev
  | CommitCandidateWithStartYomi c => exact redisp (.StartYomiOrOkuri c)
  | CommitCandidateWithSetsubiji => exact redisp .Setsuji
  | CommitCandidateWithChar c => exact redisp (.Char c)
  | Backspace => exact redisp .Backspace
  | NextCandidate => rfl
  | PrevCandidate => rfl
  | CancelConversion => rfl
  | Char c => rfl
  | Delete => rfl
  | Navigation mv => rfl
  | ToggleLatin => rfl
  | ToggleHankakuZenkaku => rfl
  | CommitUnconverted => rfl
  | Setsuji => rfl
  | StartYomiOrOkuri c => rfl
  | StartConversion => rfl

/-- C9: `handle_key` terminates on every input — the synchronous re-dispatch
recursion has depth at most two, so computing with any fuel of at least 2
agrees with `handleKey` (which uses fuel 2): every re-dispatched call starts
from a non-Converting Kana state or feeds a plain character, which never
re-dispatches again. -/
theorem c9_fuel_stable (tb : Tables) (jisyo : Jisyo) (s : InputState) (b : Buffer)
    (k : KeyEvent) (fuel : Nat) (h : 2 ≤ fuel) :
    handleKeyF tb jisyo fuel s b k = handleKey tb jisyo s b k := by
  obtain ⟨n, rfl⟩ : ∃ n, fuel = n + 2 := ⟨fuel - 2, by omega⟩
  unfold handleKey
  cases s with
  | Converting y c i =>
    cases hc : handle_key_cursor b k with
    | some b' =>
      show handleKeyF tb jisyo (n + 1 + 1) _ b k = handleKeyF tb jisyo (1 + 1) _ b k
      simp [handleKeyF, hc]
    | none =>
      show handleKeyF tb jisyo (n + 1 + 1) _ b k = handleKeyF tb jisyo (1 + 1) _ b k
      simp only [handleKeyF, hc]
      exact handle_converting_fuel tb jisyo n 0 y c i b k
  | Kana r st =>
    exact handleKeyF_fuel_nonconv tb jisyo (n + 1) 1 _ b k (fun _ _ _ h => by cases h)
  | Latin z =>
    exact handleKeyF_fuel_nonconv tb jisyo (n + 1) 1 _ b k (fun _ _ _ h => by cases h)
  | Abbrev a =>
    exact handleKeyF_fuel_nonconv tb jisyo (n + 1) 1 _ b k (fun _ _ _ h => by cases h)

/-- C9 witness: the fuel hypothesis discharged at fuel 3 on a concrete
Converting state that commits and re-dispatches. -/
theorem c9_witness :
    2 ≤ 3 ∧
    handleKeyF tb0 jisyoEmpty 3 (.Converting ['あ', 'a'] [['会']] 0) Buffer.init
        .Backspace =
      handleKey tb0 jisyoEmpty (.Converting ['あ', 'a'] [['会']] 0) Buffer.init
        .Backspace :=
  ⟨by decide,
   c9_fuel_stable tb0 jisyoEmpty (.Converting ['あ', 'a'] [['会']] 0) Buffer.init
     .Backspace 3 (by decide)⟩

-- -------------------- Converting-state invariant (C8) --------------------

theorem jisyo_lookup_ne_nil {j : Jisyo} {y : Str} {cs : List Str}
    (h : j.lookup y = some cs) : cs ≠ [] := by
  simp only [Jisyo.lookup] at h
  split at h
  · cases h
  next he =>
    injection h with h
    intro hnil
    rw [hnil] at h
    exact he h

theorem good_new_converting {jisyo : Jisyo} {y : Str} {s : InputState}
    (h : new_converting jisyo y = some s) : goodState s := by
  cases hl : jisyo.lookup y with
  | none => simp [new_converting, hl] at h
  | some cs =>
    simp only [new_converting, hl, Option.map_some'] at h
    injection h with h
    rw [← h]
    exact ⟨jisyo_lookup_ne_nil hl,
      List.length_pos.mpr (jisyo_lookup_ne_nil hl)⟩

theorem good_handle_latin (z : Bool) (b : Buffer) (k : KeyEvent) :
    goodState (handle_latin z b k).1 := by
  unfold handle_latin
  cases k <;> trivial

theorem good_handle_abbrev (jisyo : Jisyo) (a : Str) (b : Buffer) (k : KeyEvent) :
    goodState (handle_abbrev jisyo a b k).1 := by
  unfold handle_abbrev
  cases k <;> (try dsimp only) <;> try trivial
  case Backspace => split <;> trivial
  case StartConversion =>
    cases hnc : new_converting jisyo a with
    | some c => exact good_new_converting hnc
    | none => trivial

theorem good_handle_kana_char (tb : Tables) (r : Str) (st : KanaState) (b : Buffer)
    (c : Char) : goodState (handle_kana_char tb r st b c).1 := by
  obtain ⟨r', st', h⟩ := kana_char_fst tb r st b c
  rw [h]
  trivial

theorem good_handle_kana (tb : Tables) (jisyo : Jisyo) (r : Str) (st : KanaState)
    (b : Buffer) (k : KeyEvent) : goodState (handle_kana tb jisyo r st b k).1 := by
  unfold handle_kana
  cases k <;> (try dsimp only) <;> try trivial
  case ToggleKatakana => cases st <;> trivial
  case StartConversion =>
    cases st with
    | ToBeConverted y =>
      dsimp only
      split
      · cases hnc : new_converting jisyo y with
        | some c => exact good_new_converting hnc
        | none => trivial
      · trivial
    | Hiragana z => trivial
    | Katakana h => trivial
  case Backspace =>
    split
    · trivial
    · cases st with
      | ToBeConverted y => dsimp only; split <;> trivial
      | Hiragana z => trivial
      | Katakana h => trivial
  case CommitUnconverted => cases st <;> trivial
  case Setsuji =>
    split
    · cases st with
      | ToBeConverted y =>
        dsimp only
        split
        · cases hnc : new_converting jisyo (y ++ ['>']) with
          | some c => exact good_new_converting hnc
          | none => trivial
        · trivial
      | Hiragana z => trivial
      | Katakana h => trivial
    · trivial
  case StartYomiOrOkuri c =>
    split
    · cases st with
      | ToBeConverted y =>
        dsimp only
        split
        · cases hnc : new_converting jisyo (y ++ [c]) with
          | some conv => exact good_new_converting hnc
          | none => trivial
        · exact good_handle_kana_char tb [] (.ToBeConverted []) b c
      | Hiragana z => exact good_handle_kana_char tb [] (.ToBeConverted []) b c
      | Katakana h => exact good_handle_kana_char tb [] (.ToBeConverted []) b c
    · trivial
  case Char c => exact good_handle_kana_char tb r st b c

theorem good_handleKeyF (tb : Tables) (jisyo : Jisyo) :
    ∀ (fuel : Nat) (s : InputState) (b : Buffer) (k : KeyEvent),
      goodState s → goodState (handleKeyF tb jisyo fuel s b k).1 := by
  intro fuel
  induction fuel with
  | zero => exact fun s b k h => h
  | succ n ih =>
    intro s b k h
    simp only [handleKeyF]
    cases hc : handle_key_cursor b k with
    | some b' => exact h
    | none =>
      cases s with
      | Kana r st => exact good_handle_kana tb jisyo r st b k
      | Latin z => exact good_handle_latin z b k
      | Abbrev a => exact good_handle_abbrev jisyo a b k
      | Converting y c i =>
        obtain ⟨hne, hidx⟩ := h
        have hgcommit : ∀ ks,
            goodState ((commit_candidate tb (handleKeyF tb jisyo n) y c i ks b).1) := by
          intro ks
          simp only [commit_candidate]
          cases okuri y with
          | none => trivial
          | some ch => exact ih _ _ _ trivial
        unfold handle_converting
        cases k <;> (try dsimp only) <;> try exact ⟨hne, hidx⟩
        case NextCandidate =>
          exact ⟨hne, by have := List.length_pos.mpr hne; simp; omega⟩
        case PrevCandidate => exact ⟨hne, by omega⟩
        case CancelConversion => split <;> trivial
        case CommitCandidate => exact hgcommit (.Hiragana false)
        case ToggleKatakana => exact hgcommit (.Katakana false)
        case StartAbbrev => exact ih _ _ _ (hgcommit (.Hiragana false))
        case CommitCandidateWithStartYomi ch => exact ih _ _ _ (hgcommit (.Hiragana false))
        case CommitCandidateWithSetsubiji => exact ih _ _ _ (hgcommit (.Hiragana false))
        case CommitCandidateWithChar ch => exact ih _ _ _ (hgcommit (.Hiragana false))
        case Backspace => exact ih _ _ _ (hgcommit (.Hiragana false))

/-- C8: the Converting-state invariant — a non-empty candidate list and an
in-range selected index — is preserved by `handle_key` at every fuel, and
every Converting state constructed by `new_converting` (hence by any
dictionary hit) satisfies it; consequently the `expect` in
`InputState::candidate` and the `candidates.len() - 1` in next-candidate are
safe in every reachable Converting state. -/
theorem c8_converting_invariant (tb : Tables) (jisyo : Jisyo) (fuel : Nat)
    (s : InputState) (b : Buffer) (k : KeyEvent) (h : goodState s) :
    goodState (handleKeyF tb jisyo fuel s b k).1 ∧
    (∀ y s', new_converting jisyo y = some s' → goodState s') :=
  ⟨good_handleKeyF tb jisyo fuel s b k h, fun _ _ hn => good_new_converting hn⟩

/-- C8 witness: the invariant hypothesis discharged on a concrete conversion
start that reaches a Converting state. -/
theorem c8_witness :
    goodState (InputState.Kana [] (.ToBeConverted "あい".toList)) ∧
    goodState (handleKeyF tb0 jAi 2 (.Kana [] (.ToBeConverted "あい".toList))
        Buffer.init .StartConversion).1 :=
  ⟨trivial,
   (c8_converting_invariant tb0 jAi 2 (.Kana [] (.ToBeConverted "あい".toList))
       Buffer.init .StartConversion trivial).1⟩

-- -------------------- Commit-then-re-dispatch (C1) --------------------

/-- C1, amended: on a Converting state, each compound commit key first commits
the selected candidate (inserting its primary text and re-feeding the trailing
okurigana letter, when present, in the resulting mode) with a fresh Hiragana
Kana state, and then synchronously re-dispatches its follow-up key —
`StartAbbrev` for abbreviation-start, `StartYomiOrOkuri`/`Setsuji`/`Char` for
the commit-with variants, and `Backspace` for Backspace.  The
katakana-toggle commit performs no re-dispatch: it commits with a fresh
Katakana Kana state instead, and the plain commit key likewise commits with a
Hiragana state and re-dispatches nothing. -/
theorem c1_commit_redispatch (tb : Tables) (jisyo : Jisyo) (y : Str)
    (cands : List Str) (idx : Nat) (b : Buffer) :
    (handleKey tb jisyo (.Converting y cands idx) b .StartAbbrev =
       (let r := commit_candidate tb (handleKey tb jisyo) y cands idx (.Hiragana false) b
        handleKey tb jisyo r.1 r.2 .StartAbbrev)) ∧
    (∀ n, handleKey tb jisyo (.Converting y cands idx) b (.CommitCandidateWithStartYomi n) =
       (let r := commit_candidate tb (handleKey tb jisyo) y cands idx (.Hiragana false) b
        handleKey tb jisyo r.1 r.2 (.StartYomiOrOkuri n))) ∧
    (handleKey tb jisyo (.Converting y cands idx) b .CommitCandidateWithSetsubiji =
       (let r := commit_candidate tb (handleKey tb jisyo) y cands idx (.Hiragana false) b
        handleKey tb jisyo r.1 r.2 .Setsuji)) ∧
    (∀ n, handleKey tb jisyo (.Converting y cands idx) b (.CommitCandidateWithChar n) =
       (let r := commit_candidate tb (handleKey tb jisyo) y cands idx (.Hiragana false) b
        handleKey tb jisyo r.1 r.2 (.Char n))) ∧
    (handleKey tb jisyo (.Converting y cands idx) b .Backspace =
       (let r := commit_candidate tb (handleKey tb jisyo) y cands idx (.Hiragana false) b
        handleKey tb jisyo r.1 r.2 .Backspace)) ∧
    (handleKey tb jisyo (.Converting y cands idx) b .ToggleKatakana =
       commit_candidate tb (handleKey tb jisyo) y cands idx (.Katakana false) b) ∧
    (handleKey tb jisyo (.Converting y cands idx) b .CommitCandidate =
       commit_candidate tb (handleKey tb jisyo) y cands idx (.Hiragana false) b) := by
  have hcc : ∀ ks, commit_candidate tb (handleKeyF tb jisyo 1) y cands idx ks b =
      commit_candidate tb (handleKey tb jisyo) y cands idx ks b :=
    fun ks => commit_candidate_fuel tb jisyo 0 1 y cands idx ks b
  have redisp : ∀ k' : KeyEvent,
      (let r := commit_candidate tb (handleKeyF tb jisyo 1) y cands idx (.Hiragana false) b
       handleKeyF tb jisyo 1 r.1 r.2 k') =
      (let r := commit_candidate tb (handleKey tb jisyo) y cands idx (.Hiragana false) b
       handleKey tb jisyo r.1 r.2 k') := by
    intro k'
    dsimp only
    rw [hcc (.Hiragana false)]
    obtain ⟨r', st', hr⟩ :=
      commit_candidate_fst_kana tb jisyo 1 y cands idx (.Hiragana false) b
    have hr' : (commit_candidate tb (handleKey tb jisyo) y cands idx
        (.Hiragana false) b).1 = .Kana r' st' := hr
    exact handleKeyF_fuel_nonconv tb jisyo 0 1 _ _ _
      (fun _ _ _ h => by rw [hr'] at h; cases h)
  exact ⟨redisp .StartAbbrev, fun n => redisp (.StartYomiOrOkuri n), redisp .Setsuji,
    fun n => redisp (.Char n), redisp .Backspace,
    hcc (.Katakana false), hcc (.Hiragana false)⟩

/-- C1 counterexample: with reading あ`a` (okurigana `a`) and one candidate
会, the katakana-toggle commit feeds the okurigana in Katakana mode (the
buffer ends with 会ア), whereas committing and then re-dispatching the
ToggleKatakana key itself — as the claim states — would feed it in Hiragana
mode (the buffer would end with 会あ), so the two disagree. -/
theorem c1_counterexample :
    handleKey tb0 jisyoEmpty (.Converting ['あ', 'a'] [['会']] 0) Buffer.init
        .ToggleKatakana ≠
      (let r := commit_candidate tb0 (handleKey tb0 jisyoEmpty) ['あ', 'a'] [['会']] 0
          (.Hiragana false) Buffer.init
       handleKey tb0 jisyoEmpty r.1 r.2 .ToggleKatakana) := by decide

end UchiNige
